import Mathlib

/-!
# Verification of the block-chained file authentication scheme

Shallow embedding of `src/w3-file_auth/src/main.rs`.

File contents are modelled as `List Nat` (one element per byte).  The SHA-256
primitive is treated as a supplied parameter `H : List Nat → List Nat`; where a
property needs it, we assume `∀ bs, (H bs).length = 32` (`HASH_SIZE = 32`) or
injectivity (collision-freeness).

Constants of the source (`KB = 1024`, `DEFAULT_BUF_SIZE = 1024`,
`BLOCK_SIZE = 1024`, `HASH_SIZE = 32`, `BLOCK_SIZE + HASH_SIZE = 1056`) appear
as the literals `1024`, `32` and `1056` below.
-/

set_option maxRecDepth 20000

namespace FileAuth

/-- Model of `FileRevIter::next`: while `offset <= filesize`, seek to `End(-offset)`,
read up to `DEFAULT_BUF_SIZE = 1024` bytes into a fresh zeroed buffer of length
1024, yield `(len, buf)`, and advance `offset` by 1024.  `data` is the bytes
actually read; the yielded buffer is `data` padded with the untouched zeros. -/
def fileRevIterGo (file : List Nat) (offset : Nat) : List (Nat × List Nat) :=
  if h : offset ≤ file.length then
    let data := (file.drop (file.length - offset)).take 1024
    (data.length, data ++ List.replicate (1024 - data.length) 0) ::
      fileRevIterGo file (offset + 1024)
  else []
termination_by file.length + 1 - offset
decreasing_by omega

/-- Model of `FileRevIter::new`: the iterator starts at `offset = filesize % KB`. -/
def fileRevIter (file : List Nat) : List (Nat × List Nat) :=
  fileRevIterGo file (file.length % 1024)

/-- One iteration of the loop body of `compute_hashes`: if a previous digest
exists (`hashes.last()`), the whole 1024-byte buffer extended by that digest is
hashed; otherwise only the `len` bytes actually read are hashed.  The result is
pushed onto `hashes`. -/
def hashStep (H : List Nat → List Nat) (hashes : List (List Nat))
    (chunk : Nat × List Nat) : List (List Nat) :=
  match hashes.getLast? with
  | some val => hashes ++ [H (chunk.2 ++ val)]
  | none => hashes ++ [H (chunk.2.take chunk.1)]

/-- Model of `compute_hashes`: fold the loop body over the reverse block iterator,
starting from the caller-supplied vector (`main` passes an empty one). -/
def compute_hashes (H : List Nat → List Nat) (file : List Nat)
    (hashes : List (List Nat)) : List (List Nat) :=
  (fileRevIter file).foldl (hashStep H) hashes

/-- The value `hashes.last()` as printed by `main` (`Hash 0`) and handed to `verify`:
the last digest pushed, i.e. the root of the chain. -/
def rootHash (H : List Nat → List Nat) (file : List Nat) : List Nat :=
  (compute_hashes H file []).getLastD []

/-- The writing loop of `sign`: for each digest in the given list, read the
next block (up to 1024 bytes) of the input and write it followed by the
digest; after the loop, read and write one final block with no digest.
The first argument is the not-yet-read remainder of the input file; a read
advances the position by the number of bytes actually read. -/
def signGo : List Nat → List (List Nat) → List Nat
  | file, [] => file.take 1024
  | file, h :: hs =>
      file.take 1024 ++ h ++ signGo (file.drop (file.take 1024).length) hs

/-- Model of `sign`: the digests walked are `hashes.iter().rev().skip(1)`, i.e. all but
the root, from the digest of block 1 down to the digest of the last block. -/
def sign (file : List Nat) (hashes : List (List Nat)) : List Nat :=
  signGo file (hashes.reverse.drop 1)

/-- The `verify` loop: read up to `BLOCK_SIZE + HASH_SIZE = 1056` bytes; on a
zero-length read fail; hash the bytes read and compare with the expected
digest; on mismatch fail; if the read was short this is the final block —
write it and succeed; otherwise write the first 1024 bytes, take the trailing
32 as the next expected digest, and loop.  Returns the verification result
together with the bytes written to the destination file. -/
def verify (H : List Nat → List Nat) (input : List Nat) (hash : List Nat) :
    Bool × List Nat :=
  -- `min input.length 1056` is `len`, the number of bytes the read returns;
  -- `input.take (min input.length 1056)` is `buf[0..len]`.
  if h0 : 0 < min input.length 1056 then
    if H (input.take (min input.length 1056)) = hash then
      if min input.length 1056 = 1056 then
        ((verify H (input.drop 1056)
            ((input.take (min input.length 1056)).drop 1024)).1,
          (input.take (min input.length 1056)).take 1024 ++
            (verify H (input.drop 1056)
              ((input.take (min input.length 1056)).drop 1024)).2)
      else (true, input.take (min input.length 1056))
    else (false, [])
  else (false, [])
termination_by input.length
decreasing_by simp only [List.length_drop]; omega

/-! ## Filesystem level

`sign` and `verify` open their destination with
`OpenOptions::new().write(true).create_new(true)`, which fails with
`AlreadyExists` when the path already exists; `File::open` of a missing input
fails with `NotFound`.  A filesystem is a finite map from paths to contents;
paths are an arbitrary type with decidable equality. -/

inductive FsErr where
  | alreadyExists
  | notFound
deriving DecidableEq

/-- Model of `fn sign`, filesystem view: the destination is created first
(`create_new`), so an existing destination fails before the input is even
opened; then the input is opened and the augmented content written. -/
def sign_fs {Path : Type} [DecidableEq Path] (fs : Path → Option (List Nat))
    (input output : Path) (hashes : List (List Nat)) :
    (Path → Option (List Nat)) × Except FsErr Unit :=
  match fs output with
  | some _ => (fs, Except.error FsErr.alreadyExists)
  | none =>
      let fs1 : Path → Option (List Nat) :=
        fun p => if p = output then some [] else fs p
      match fs1 input with
      | none => (fs1, Except.error FsErr.notFound)
      | some content =>
          (fun p => if p = output then some (sign content hashes) else fs1 p,
           Except.ok ())

/-- Model of `fn verify`, filesystem view: the input is opened first, then the
destination is created (`create_new`), then the loop runs, writing the
reconstructed bytes to the destination. -/
def verify_fs {Path : Type} [DecidableEq Path] (H : List Nat → List Nat)
    (fs : Path → Option (List Nat)) (input output : Path) (root : List Nat) :
    (Path → Option (List Nat)) × Except FsErr Bool :=
  match fs input with
  | none => (fs, Except.error FsErr.notFound)
  | some content =>
      match fs output with
      | some _ => (fs, Except.error FsErr.alreadyExists)
      | none =>
          let r := verify H content root
          (fun p => if p = output then some r.2 else fs p, Except.ok r.1)

/-! ## Spec-side definitions

These follow the words of the spec (§3 Data Model), to be compared with the
definitions above, which are translated from the source. -/

/-- The blocks of a file per spec §3: contiguous ranges of nominal size 1024,
the last block possibly shorter (a file of at most one block is one block;
note the spec leaves the empty file degenerate — here it gives `[[]]`). -/
def fileBlocks (file : List Nat) : List (List Nat) :=
  if h : 1024 < file.length then
    file.take 1024 :: fileBlocks (file.drop 1024)
  else [file]
termination_by file.length
decreasing_by simp only [List.length_drop]; omega

/-- The digest chain per spec §3, in file order
(`digest(block_i) = H(block_i_bytes ++ digest(block_{i+1}))`,
`digest(last_block) = H(last_block_bytes)`); entry 0 is the root. -/
def specChain (H : List Nat → List Nat) : List (List Nat) → List (List Nat)
  | [] => []
  | b :: rest =>
      match specChain H rest with
      | [] => [H b]
      | d :: ds => H (b ++ d) :: d :: ds

/-- The augmented file per spec §3: the ordered sequence of
`(block_i, digest(block_{i+1}))` pairs for `i in [0, N-2]`, followed by
`block_{N-1}` alone. -/
def specAugment (H : List Nat → List Nat) : List (List Nat) → List Nat
  | [] => []
  | [b] => b
  | b :: rest =>
      b ++ (match specChain H rest with | [] => [] | d :: _ => d) ++
        specAugment H rest

/-! ## A concrete digest stand-in

Used only to instantiate the theorems at concrete inputs.  `natCode` is an
injective code of byte lists into `Nat`, so `H0` is an injective digest stand-in with
32-entry output. -/

/-- Injective code of a list of naturals. -/
def natCode : List Nat → Nat
  | [] => 0
  | x :: xs => Nat.pair x (natCode xs) + 1

/-- A concrete injective digest function with 32-entry output. -/
def H0 (bs : List Nat) : List Nat :=
  natCode bs :: List.replicate 31 0

lemma natCode_injective : Function.Injective natCode := by
  intro xs
  induction xs with
  | nil =>
      intro ys h
      cases ys with
      | nil => rfl
      | cons y ys => simp [natCode] at h
  | cons x xs ih =>
      intro ys h
      cases ys with
      | nil => simp [natCode] at h
      | cons y ys =>
          simp only [natCode, Nat.add_right_cancel_iff] at h
          obtain ⟨h1, h2⟩ := Nat.pair_eq_pair.mp h
          rw [h1, ih h2]

lemma H0_injective : Function.Injective H0 := by
  intro xs ys h
  exact natCode_injective (by simpa [H0] using congrArg List.head? h)

lemma H0_len : ∀ bs, (H0 bs).length = 32 := by
  intro bs; simp [H0]

/-! ## Unfolding lemmas -/

lemma fileRevIterGo_pos (file : List Nat) (offset : Nat)
    (h : offset ≤ file.length) :
    fileRevIterGo file offset =
      (((file.drop (file.length - offset)).take 1024).length,
        (file.drop (file.length - offset)).take 1024 ++
          List.replicate
            (1024 - ((file.drop (file.length - offset)).take 1024).length) 0) ::
        fileRevIterGo file (offset + 1024) := by
  rw [fileRevIterGo]
  simp [h]

lemma fileRevIterGo_neg (file : List Nat) (offset : Nat)
    (h : file.length < offset) :
    fileRevIterGo file offset = [] := by
  rw [fileRevIterGo]
  simp [Nat.not_le.mpr h]

lemma verify_nil (H : List Nat → List Nat) (hash : List Nat) :
    verify H [] hash = (false, []) := by
  rw [verify]
  simp

lemma verify_mismatch (H : List Nat → List Nat) (input hash : List Nat)
    (h0 : 0 < input.length)
    (hne : H (input.take (min input.length 1056)) ≠ hash) :
    verify H input hash = (false, []) := by
  rw [verify, dif_pos (by omega : 0 < min input.length 1056), if_neg hne]

lemma verify_last (H : List Nat → List Nat) (input hash : List Nat)
    (h0 : 0 < input.length) (hlt : input.length < 1056)
    (hh : H input = hash) :
    verify H input hash = (true, input) := by
  have hmin : min input.length 1056 = input.length := by omega
  rw [verify, hmin, List.take_length, dif_pos h0, if_pos hh,
    if_neg (by omega : ¬ input.length = 1056)]

lemma verify_full (H : List Nat → List Nat) (input hash : List Nat)
    (hge : 1056 ≤ input.length) (hh : H (input.take 1056) = hash) :
    verify H input hash =
      ((verify H (input.drop 1056) ((input.take 1056).drop 1024)).1,
        (input.take 1056).take 1024 ++
          (verify H (input.drop 1056) ((input.take 1056).drop 1024)).2) := by
  have hmin : min input.length 1056 = 1056 := by omega
  rw [verify, hmin, dif_pos (by omega : (0:Nat) < 1056), if_pos hh,
    if_pos (rfl : (1056:Nat) = 1056)]

/-! ## Basic list facts -/

lemma drop_take_1024 (file : List Nat) :
    file.drop (file.take 1024).length = file.drop 1024 := by
  rcases le_or_lt 1024 file.length with h | h
  · rw [List.length_take]
    congr 1
    omega
  · rw [List.length_take]
    have h1 : min 1024 file.length = file.length := by omega
    rw [h1, List.drop_length, List.drop_eq_nil_of_le (by omega)]

/-! ## Structure of the reverse iterator -/

lemma fileRevIter_small (file : List Nat) (h : file.length < 1024) :
    fileRevIter file =
      [(file.length, file ++ List.replicate (1024 - file.length) 0)] := by
  unfold fileRevIter
  rw [Nat.mod_eq_of_lt h, fileRevIterGo_pos file file.length le_rfl,
    fileRevIterGo_neg file _ (by omega)]
  simp [List.take_of_length_le h.le]

lemma fileRevIterGo_append (a rest : List Nat) (ha : a.length = 1024) :
    ∀ (k offset : Nat), rest.length + 1024 - offset ≤ k →
      offset % 1024 = rest.length % 1024 → offset ≤ rest.length + 1024 →
      fileRevIterGo (a ++ rest) offset =
        fileRevIterGo rest offset ++ [(1024, a)] := by
  intro k
  induction k with
  | zero =>
      intro offset hk hmod hle
      have hoff : offset = rest.length + 1024 := by omega
      subst hoff
      have hlen : (a ++ rest).length = 1024 + rest.length := by
        simp [ha, Nat.add_comm]
      rw [fileRevIterGo_pos (a ++ rest) _ (by omega),
        fileRevIterGo_neg (a ++ rest) _ (by omega),
        fileRevIterGo_neg rest _ (by omega)]
      have hdata : ((a ++ rest).drop ((a ++ rest).length - (rest.length + 1024))).take 1024 = a := by
        have h0 : (a ++ rest).length - (rest.length + 1024) = 0 := by omega
        rw [h0, List.drop_zero, List.take_left' ha]
      rw [hdata, ha]
      simp
  | succ k ih =>
      intro offset hk hmod hle
      by_cases hoff : offset ≤ rest.length
      · have hlen : (a ++ rest).length = 1024 + rest.length := by
          simp [ha, Nat.add_comm]
        rw [fileRevIterGo_pos (a ++ rest) _ (by omega),
          fileRevIterGo_pos rest _ hoff]
        have hdata : (a ++ rest).drop ((a ++ rest).length - offset) =
            rest.drop (rest.length - offset) := by
          have h1 : (a ++ rest).length - offset =
              a.length + (rest.length - offset) := by omega
          rw [h1, List.drop_append]
        rw [hdata, ih (offset + 1024) (by omega) (by omega) (by omega)]
        simp
      · have hoff2 : offset = rest.length + 1024 := by omega
        subst hoff2
        have hlen : (a ++ rest).length = 1024 + rest.length := by
          simp [ha, Nat.add_comm]
        rw [fileRevIterGo_pos (a ++ rest) _ (by omega),
          fileRevIterGo_neg (a ++ rest) _ (by omega),
          fileRevIterGo_neg rest _ (by omega)]
        have hdata : ((a ++ rest).drop ((a ++ rest).length - (rest.length + 1024))).take 1024 = a := by
          have h0 : (a ++ rest).length - (rest.length + 1024) = 0 := by omega
          rw [h0, List.drop_zero, List.take_left' ha]
        rw [hdata, ha]
        simp

lemma fileRevIter_append (a rest : List Nat) (ha : a.length = 1024) :
    fileRevIter (a ++ rest) = fileRevIter rest ++ [(1024, a)] := by
  unfold fileRevIter
  have hmod : (a ++ rest).length % 1024 = rest.length % 1024 := by
    have : (a ++ rest).length = 1024 + rest.length := by simp [ha, Nat.add_comm]
    omega
  rw [hmod]
  exact fileRevIterGo_append a rest ha (rest.length + 1024) (rest.length % 1024)
    (by omega) (by omega) (by omega)

lemma fileRevIter_ne_nil (file : List Nat) : fileRevIter file ≠ [] := by
  unfold fileRevIter
  rw [fileRevIterGo_pos file _ (Nat.mod_le _ _)]
  simp

/-! ## Structure of the digest list -/

lemma exists_concat {α : Type} (l : List α) (h : l ≠ []) :
    ∃ ys y, l = ys ++ [y] :=
  ⟨l.dropLast, l.getLast h, (List.dropLast_append_getLast h).symm⟩

lemma hashStep_of_ne_nil (H : List Nat → List Nat) (l : List (List Nat))
    (c : Nat × List Nat) (h : l ≠ []) :
    hashStep H l c = l ++ [H (c.2 ++ l.getLastD [])] := by
  obtain ⟨ys, y, hy⟩ := exists_concat l h
  subst hy
  unfold hashStep
  rw [List.getLast?_concat, List.getLastD_concat]

lemma foldl_hashStep_length (H : List Nat → List Nat) :
    ∀ (l : List (Nat × List Nat)) (init : List (List Nat)),
      (l.foldl (hashStep H) init).length = init.length + l.length := by
  intro l
  induction l with
  | nil => simp
  | cons c l ih =>
      intro init
      rw [List.foldl_cons, ih]
      unfold hashStep
      cases h : init.getLast? <;> simp <;> omega

lemma compute_hashes_ne_nil (H : List Nat → List Nat) (file : List Nat) :
    compute_hashes H file [] ≠ [] := by
  rw [← List.length_pos_iff_ne_nil]
  simp only [compute_hashes]
  rw [foldl_hashStep_length]
  have := List.length_pos_iff_ne_nil.mpr (fileRevIter_ne_nil file)
  omega

lemma compute_hashes_small (H : List Nat → List Nat) (file : List Nat)
    (h : file.length < 1024) :
    compute_hashes H file [] = [H file] := by
  simp only [compute_hashes]
  rw [fileRevIter_small file h]
  simp only [List.foldl_cons, List.foldl_nil]
  unfold hashStep
  simp only [List.getLast?_nil, List.nil_append]
  rw [List.take_left]

lemma compute_hashes_append (H : List Nat → List Nat) (a rest : List Nat)
    (ha : a.length = 1024) :
    compute_hashes H (a ++ rest) [] =
      compute_hashes H rest [] ++ [H (a ++ rootHash H rest)] := by
  calc compute_hashes H (a ++ rest) []
      = (fileRevIter rest ++ [(1024, a)]).foldl (hashStep H) [] := by
        simp only [compute_hashes]
        rw [fileRevIter_append a rest ha]
    _ = hashStep H (compute_hashes H rest []) (1024, a) := by
        rw [List.foldl_append, List.foldl_cons, List.foldl_nil]
        rfl
    _ = compute_hashes H rest [] ++ [H (a ++ rootHash H rest)] := by
        rw [hashStep_of_ne_nil H _ _ (compute_hashes_ne_nil H rest)]
        have hr : rootHash H rest = (compute_hashes H rest []).getLastD [] := rfl
        rw [hr]

lemma rootHash_small (H : List Nat → List Nat) (file : List Nat)
    (h : file.length < 1024) :
    rootHash H file = H file := by
  simp only [rootHash]
  rw [compute_hashes_small H file h]
  rfl

lemma rootHash_append (H : List Nat → List Nat) (a rest : List Nat)
    (ha : a.length = 1024) :
    rootHash H (a ++ rest) = H (a ++ rootHash H rest) := by
  have h1 : rootHash H (a ++ rest) = (compute_hashes H (a ++ rest) []).getLastD [] := rfl
  rw [h1, compute_hashes_append H a rest ha, List.getLastD_concat]

/-! ## Structure of the augmented output of `sign` -/

lemma sign_small (H : List Nat → List Nat) (file : List Nat)
    (h : file.length < 1024) :
    sign file (compute_hashes H file []) = file := by
  rw [compute_hashes_small H file h]
  simp only [sign, List.reverse_singleton, List.drop_succ_cons, List.drop_zero]
  simp [signGo, List.take_of_length_le h.le]

lemma sign_append (H : List Nat → List Nat) (a rest : List Nat)
    (ha : a.length = 1024) :
    sign (a ++ rest) (compute_hashes H (a ++ rest) []) =
      a ++ rootHash H rest ++ sign rest (compute_hashes H rest []) := by
  rw [compute_hashes_append H a rest ha]
  obtain ⟨ys, y, hy⟩ := exists_concat _ (compute_hashes_ne_nil H rest)
  have hylast : y = rootHash H rest := by
    have : rootHash H rest = (compute_hashes H rest []).getLastD [] := rfl
    rw [this, hy, List.getLastD_concat]
  rw [hy]
  simp only [sign, List.reverse_concat, List.drop_succ_cons, List.drop_zero]
  simp only [signGo]
  rw [List.take_left' ha, List.drop_left]
  rw [hylast]

/-! ## The round-trip characterization

For every file, `verify` on `sign`'s output with the printed root digest
writes back exactly the original bytes, and succeeds exactly when the file
length is not a multiple of 1024.  (For multiples of 1024 — including the
empty file — the spurious zero-length chunk of `FileRevIter` makes the
augmented file a multiple of 1056 bytes, and the loop ends on a zero-length
read, which reports failure.) -/

lemma rootHash_len (H : List Nat → List Nat)
    (Hlen : ∀ bs, (H bs).length = 32) (file : List Nat) :
    (rootHash H file).length = 32 := by
  rcases lt_or_le file.length 1024 with h | h
  · rw [rootHash_small H file h]
    exact Hlen file
  · have hsplit := List.take_append_drop 1024 file
    have hlen : (file.take 1024).length = 1024 := by
      rw [List.length_take]; omega
    have hr := rootHash_append H (file.take 1024) (file.drop 1024) hlen
    rw [hsplit] at hr
    rw [hr]
    exact Hlen _

lemma verify_sign_bound (H : List Nat → List Nat)
    (Hlen : ∀ bs, (H bs).length = 32) :
    ∀ (n : Nat) (file : List Nat), file.length ≤ n →
      verify H (sign file (compute_hashes H file [])) (rootHash H file) =
        (decide (file.length % 1024 ≠ 0), file) := by
  intro n
  induction n with
  | zero =>
      intro file hf
      have hfile : file = [] := List.eq_nil_of_length_eq_zero (by omega)
      subst hfile
      rw [sign_small H [] (by simp), verify_nil]
      simp
  | succ n ih =>
      intro file hf
      rcases lt_or_le file.length 1024 with h | h
      · rw [sign_small H file h]
        rcases Nat.eq_zero_or_pos file.length with h0 | h0
        · have hfile : file = [] := List.eq_nil_of_length_eq_zero h0
          subst hfile
          rw [verify_nil]
          simp
        · rw [verify_last H file _ h0 (by omega) (rootHash_small H file h).symm]
          have h1 : file.length % 1024 ≠ 0 := by omega
          simp [h1]
      · have hsplit := List.take_append_drop 1024 file
        have hlen : (file.take 1024).length = 1024 := by
          rw [List.length_take]; omega
        have hsign := sign_append H (file.take 1024) (file.drop 1024) hlen
        have hroot := rootHash_append H (file.take 1024) (file.drop 1024) hlen
        rw [hsplit] at hsign hroot
        have hr32 : (rootHash H (file.drop 1024)).length = 32 :=
          rootHash_len H Hlen (file.drop 1024)
        have hfront : (file.take 1024 ++ rootHash H (file.drop 1024)).length = 1056 := by
          rw [List.length_append, hlen, hr32]
        rw [hsign, hroot]
        have htake : ((file.take 1024 ++ rootHash H (file.drop 1024)) ++
            sign (file.drop 1024) (compute_hashes H (file.drop 1024) [])).take 1056 =
            file.take 1024 ++ rootHash H (file.drop 1024) := List.take_left' hfront
        have hge : 1056 ≤ ((file.take 1024 ++ rootHash H (file.drop 1024)) ++
            sign (file.drop 1024) (compute_hashes H (file.drop 1024) [])).length := by
          rw [List.length_append, hfront]
          omega
        have hh : H (((file.take 1024 ++ rootHash H (file.drop 1024)) ++
            sign (file.drop 1024) (compute_hashes H (file.drop 1024) [])).take 1056) =
            H (file.take 1024 ++ rootHash H (file.drop 1024)) := by
          rw [htake]
        rw [verify_full H _ _ hge hh, htake, List.drop_left' hfront,
          List.take_left' hlen, List.drop_left' hlen,
          ih (file.drop 1024) (by rw [List.length_drop]; omega)]
        have hmod : (file.drop 1024).length % 1024 = file.length % 1024 := by
          rw [List.length_drop]; omega
        rw [hmod, hsplit]

/-- For every file, verifying `sign`'s output against the printed root digest
reconstructs exactly the original bytes, and the boolean result is true iff
the file length is not a multiple of 1024. -/
lemma verify_sign_eq (H : List Nat → List Nat)
    (Hlen : ∀ bs, (H bs).length = 32) (file : List Nat) :
    verify H (sign file (compute_hashes H file [])) (rootHash H file) =
      (decide (file.length % 1024 ≠ 0), file) :=
  verify_sign_bound H Hlen file.length file le_rfl

/-! ## Counting lemmas -/

lemma headD_append_of_ne_nil {α : Type} (xs ys : List α) (d : α)
    (h : xs ≠ []) : (xs ++ ys).headD d = xs.headD d := by
  cases xs with
  | nil => exact absurd rfl h
  | cons x xs => simp

lemma fileRevIter_length_small (file : List Nat) (h : file.length < 1024) :
    (fileRevIter file).length = file.length / 1024 + 1 := by
  rw [fileRevIter_small file h]
  simp [Nat.div_eq_of_lt h]

lemma fileRevIter_length_bound :
    ∀ (n : Nat) (file : List Nat), file.length ≤ n →
      (fileRevIter file).length = file.length / 1024 + 1 := by
  intro n
  induction n with
  | zero =>
      intro file hf
      exact fileRevIter_length_small file (by omega)
  | succ n ih =>
      intro file hf
      rcases lt_or_le file.length 1024 with h | h
      · exact fileRevIter_length_small file h
      · have hsplit := List.take_append_drop 1024 file
        have hlen : (file.take 1024).length = 1024 := by
          rw [List.length_take]; omega
        have hit := fileRevIter_append (file.take 1024) (file.drop 1024) hlen
        rw [hsplit] at hit
        rw [hit, List.length_append,
          ih (file.drop 1024) (by rw [List.length_drop]; omega),
          List.length_drop]
        simp
        omega

/-- The reverse iterator always yields `filesize / 1024 + 1` chunks: one more
than the number of nonempty blocks when the length is a multiple of 1024. -/
lemma fileRevIter_length (file : List Nat) :
    (fileRevIter file).length = file.length / 1024 + 1 :=
  fileRevIter_length_bound file.length file le_rfl

lemma fileRevIter_head_bound :
    ∀ (n : Nat) (file : List Nat), file.length ≤ n →
      ((fileRevIter file).headD (0, [])).1 = file.length % 1024 := by
  intro n
  induction n with
  | zero =>
      intro file hf
      rw [fileRevIter_small file (by omega)]
      simp
      omega
  | succ n ih =>
      intro file hf
      rcases lt_or_le file.length 1024 with h | h
      · rw [fileRevIter_small file h]
        simp
        omega
      · have hsplit := List.take_append_drop 1024 file
        have hlen : (file.take 1024).length = 1024 := by
          rw [List.length_take]; omega
        have hit := fileRevIter_append (file.take 1024) (file.drop 1024) hlen
        rw [hsplit] at hit
        rw [hit, headD_append_of_ne_nil _ _ _ (fileRevIter_ne_nil _),
          ih (file.drop 1024) (by rw [List.length_drop]; omega),
          List.length_drop]
        omega

/-- The first chunk the reverse iterator yields has data length
`filesize % 1024` — in particular length 0 whenever the file size is a
multiple of 1024 (also for the empty file). -/
lemma fileRevIter_head_fst (file : List Nat) :
    ((fileRevIter file).headD (0, [])).1 = file.length % 1024 :=
  fileRevIter_head_bound file.length file le_rfl

lemma sign_length_small (H : List Nat → List Nat) (file : List Nat)
    (h : file.length < 1024) :
    (sign file (compute_hashes H file [])).length =
      file.length + 32 * (file.length / 1024) := by
  rw [sign_small H file h]
  simp [Nat.div_eq_of_lt h]

lemma sign_length_bound (H : List Nat → List Nat)
    (Hlen : ∀ bs, (H bs).length = 32) :
    ∀ (n : Nat) (file : List Nat), file.length ≤ n →
      (sign file (compute_hashes H file [])).length =
        file.length + 32 * (file.length / 1024) := by
  intro n
  induction n with
  | zero =>
      intro file hf
      exact sign_length_small H file (by omega)
  | succ n ih =>
      intro file hf
      rcases lt_or_le file.length 1024 with h | h
      · exact sign_length_small H file h
      · have hsplit := List.take_append_drop 1024 file
        have hlen : (file.take 1024).length = 1024 := by
          rw [List.length_take]; omega
        have hsign := sign_append H (file.take 1024) (file.drop 1024) hlen
        rw [hsplit] at hsign
        rw [hsign, List.length_append, List.length_append, hlen,
          rootHash_len H Hlen (file.drop 1024),
          ih (file.drop 1024) (by rw [List.length_drop]; omega),
          List.length_drop]
        omega

/-- Length of the augmented output: the original length plus 32 bytes per
1024-byte boundary crossed (`filesize / 1024` digests are embedded). -/
lemma sign_length (H : List Nat → List Nat)
    (Hlen : ∀ bs, (H bs).length = 32) (file : List Nat) :
    (sign file (compute_hashes H file [])).length =
      file.length + 32 * (file.length / 1024) :=
  sign_length_bound H Hlen file.length file le_rfl

/-! ## Inputs whose length is a multiple of 1056 never verify -/

lemma verify_mod1056_bound (H : List Nat → List Nat) :
    ∀ (n : Nat) (input hash : List Nat), input.length ≤ n →
      input.length % 1056 = 0 → (verify H input hash).1 = false := by
  intro n
  induction n with
  | zero =>
      intro input hash hle hmod
      have hi : input = [] := List.eq_nil_of_length_eq_zero (by omega)
      subst hi
      rw [verify_nil]
  | succ n ih =>
      intro input hash hle hmod
      rcases Nat.eq_zero_or_pos input.length with h0 | h0
      · have hi : input = [] := List.eq_nil_of_length_eq_zero h0
        subst hi
        rw [verify_nil]
      · have hge : 1056 ≤ input.length := by omega
        by_cases hh : H (input.take 1056) = hash
        · rw [verify_full H input hash hge hh]
          exact ih (input.drop 1056) _ (by rw [List.length_drop]; omega)
            (by rw [List.length_drop]; omega)
        · rw [verify_mismatch H input hash h0 ?hne]
          case hne =>
            have hmin : min input.length 1056 = 1056 := by omega
            rw [hmin]
            exact hh

/-! ## Tamper detection -/

lemma getD_append_left (xs ys : List Nat) (p : Nat) (h : p < xs.length) :
    (xs ++ ys).getD p 0 = xs.getD p 0 := by
  rw [List.getD_eq_getElem?_getD, List.getD_eq_getElem?_getD,
    List.getElem?_append, if_pos h]

lemma getD_append_right (xs ys : List Nat) (p : Nat) (h : xs.length ≤ p) :
    (xs ++ ys).getD p 0 = ys.getD (p - xs.length) 0 := by
  rw [List.getD_eq_getElem?_getD, List.getD_eq_getElem?_getD,
    List.getElem?_append, if_neg (by omega)]

lemma set_ne_of_getD_ne {l : List Nat} {p v : Nat} (hp : p < l.length)
    (hv : l.getD p 0 ≠ v) : l.set p v ≠ l := by
  intro he
  apply hv
  have h1 : (l.set p v).getD p 0 = v := by
    rw [List.getD_eq_getElem?_getD, List.getElem?_set_self hp]
    rfl
  exact he ▸ h1

/-- Flipping any byte of the augmented file makes verification fail, the
failure being detected at or before the 1056-byte chunk holding the flipped
byte: at most `1024 * (p / 1056)` content bytes are written out. -/
lemma tamper_bound (H : List Nat → List Nat)
    (Hinj : Function.Injective H) (Hlen : ∀ bs, (H bs).length = 32) :
    ∀ (n : Nat) (file : List Nat), file.length ≤ n → ∀ (p v : Nat),
      p < (sign file (compute_hashes H file [])).length →
      (sign file (compute_hashes H file [])).getD p 0 ≠ v →
      (verify H ((sign file (compute_hashes H file [])).set p v)
          (rootHash H file)).1 = false ∧
        (verify H ((sign file (compute_hashes H file [])).set p v)
          (rootHash H file)).2.length ≤ 1024 * (p / 1056) := by
  intro n
  induction n with
  | zero =>
      intro file hf p v hp hv
      have hfile : file = [] := List.eq_nil_of_length_eq_zero (by omega)
      subst hfile
      rw [sign_small H [] (by simp)] at hp
      simp at hp
  | succ n ih =>
      intro file hf p v hp hv
      rcases lt_or_le file.length 1024 with h | h
      · -- the whole augmented file is the single final block
        rw [sign_small H file h] at hp hv ⊢
        rw [rootHash_small H file h]
        have hlen' : (file.set p v).length = file.length := List.length_set ..
        have h0 : 0 < file.length := by omega
        have hne : H ((file.set p v).take (min (file.set p v).length 1056)) ≠
            H file := by
          have hmin : min (file.set p v).length 1056 = (file.set p v).length := by
            omega
          rw [hmin, List.take_length]
          intro hcon
          exact set_ne_of_getD_ne (by omega) hv (Hinj hcon)
        rw [verify_mismatch H _ _ (by omega) hne]
        simp
      · have hsplit := List.take_append_drop 1024 file
        have hlen : (file.take 1024).length = 1024 := by
          rw [List.length_take]; omega
        have hsign := sign_append H (file.take 1024) (file.drop 1024) hlen
        have hroot := rootHash_append H (file.take 1024) (file.drop 1024) hlen
        rw [hsplit] at hsign hroot
        have hr32 : (rootHash H (file.drop 1024)).length = 32 :=
          rootHash_len H Hlen (file.drop 1024)
        have hfront : (file.take 1024 ++ rootHash H (file.drop 1024)).length = 1056 := by
          rw [List.length_append, hlen, hr32]
        rw [hsign] at hp hv ⊢
        rw [hroot]
        rw [List.length_append, hfront] at hp
        by_cases hc : p < 1056
        · -- flipped byte in the first 1056-byte chunk: first compare fails
          rw [List.set_append, if_pos (by omega)]
          have hsetlen : ((file.take 1024 ++ rootHash H (file.drop 1024)).set p v).length
              = 1056 := by rw [List.length_set, hfront]
          have htake : (((file.take 1024 ++ rootHash H (file.drop 1024)).set p v) ++
              sign (file.drop 1024) (compute_hashes H (file.drop 1024) [])).take 1056 =
              (file.take 1024 ++ rootHash H (file.drop 1024)).set p v :=
            List.take_left' hsetlen
          have hvl : (file.take 1024 ++ rootHash H (file.drop 1024)).getD p 0 ≠ v := by
            rw [getD_append_left (file.take 1024 ++ rootHash H (file.drop 1024))
              (sign (file.drop 1024) (compute_hashes H (file.drop 1024) []))
              p (by omega)] at hv
            exact hv
          have hne : H (((((file.take 1024 ++ rootHash H (file.drop 1024)).set p v) ++
              sign (file.drop 1024) (compute_hashes H (file.drop 1024) [])).take
                (min ((((file.take 1024 ++ rootHash H (file.drop 1024)).set p v) ++
                  sign (file.drop 1024) (compute_hashes H (file.drop 1024) [])).length)
                  1056))) ≠ H (file.take 1024 ++ rootHash H (file.drop 1024)) := by
            have hmin : min ((((file.take 1024 ++ rootHash H (file.drop 1024)).set p v) ++
                sign (file.drop 1024) (compute_hashes H (file.drop 1024) [])).length)
                1056 = 1056 := by
              rw [List.length_append, hsetlen]
              omega
            rw [hmin, htake]
            intro hcon
            exact set_ne_of_getD_ne (by omega) hvl (Hinj hcon)
          rw [verify_mismatch H _ _ (by rw [List.length_append, hsetlen]; omega) hne]
          simp
        · -- flipped byte beyond the first chunk: first compare passes, recurse
          rw [List.set_append, if_neg (by omega), hfront]
          have htake : ((file.take 1024 ++ rootHash H (file.drop 1024)) ++
              (sign (file.drop 1024) (compute_hashes H (file.drop 1024) [])).set
                (p - 1056) v).take 1056 =
              file.take 1024 ++ rootHash H (file.drop 1024) := List.take_left' hfront
          have hge : 1056 ≤ ((file.take 1024 ++ rootHash H (file.drop 1024)) ++
              (sign (file.drop 1024) (compute_hashes H (file.drop 1024) [])).set
                (p - 1056) v).length := by
            rw [List.length_append, hfront]
            omega
          have hh : H (((file.take 1024 ++ rootHash H (file.drop 1024)) ++
              (sign (file.drop 1024) (compute_hashes H (file.drop 1024) [])).set
                (p - 1056) v).take 1056) =
              H (file.take 1024 ++ rootHash H (file.drop 1024)) := by
            rw [htake]
          rw [verify_full H _ _ hge hh, htake, List.drop_left' hfront,
            List.take_left' hlen, List.drop_left' hlen]
          have hv' : (sign (file.drop 1024)
              (compute_hashes H (file.drop 1024) [])).getD (p - 1056) 0 ≠ v := by
            rw [getD_append_right (file.take 1024 ++ rootHash H (file.drop 1024))
              (sign (file.drop 1024) (compute_hashes H (file.drop 1024) []))
              p (by omega), hfront] at hv
            exact hv
          have hrec := ih (file.drop 1024) (by rw [List.length_drop]; omega)
            (p - 1056) v (by omega) hv'
          refine ⟨hrec.1, ?_⟩
          rw [List.length_append, hlen]
          have hdiv : p / 1056 = (p - 1056) / 1056 + 1 := by omega
          rw [hdiv]
          have := hrec.2
          omega

/-! ## Root sensitivity -/

/-- Verifying a signed nonempty file against any digest other than the printed
root fails on the very first chunk: nothing at all is written out. -/
lemma verify_wrong_root (H : List Nat → List Nat)
    (Hlen : ∀ bs, (H bs).length = 32) (file : List Nat) (hne : file ≠ [])
    (r : List Nat) (hr : r ≠ rootHash H file) :
    verify H (sign file (compute_hashes H file [])) r = (false, []) := by
  rcases lt_or_le file.length 1024 with h | h
  · rw [sign_small H file h]
    have h0 : 0 < file.length := List.length_pos.mpr hne
    apply verify_mismatch H file r h0
    have hmin : min file.length 1056 = file.length := by omega
    rw [hmin, List.take_length, ← rootHash_small H file h]
    exact Ne.symm hr
  · have hsplit := List.take_append_drop 1024 file
    have hlen : (file.take 1024).length = 1024 := by
      rw [List.length_take]; omega
    have hsign := sign_append H (file.take 1024) (file.drop 1024) hlen
    have hroot := rootHash_append H (file.take 1024) (file.drop 1024) hlen
    rw [hsplit] at hsign hroot
    have hfront : (file.take 1024 ++ rootHash H (file.drop 1024)).length = 1056 := by
      rw [List.length_append, hlen, rootHash_len H Hlen (file.drop 1024)]
    rw [hsign]
    apply verify_mismatch H _ r (by rw [List.length_append, hfront]; omega)
    have hmin : min ((file.take 1024 ++ rootHash H (file.drop 1024)) ++
        sign (file.drop 1024) (compute_hashes H (file.drop 1024) [])).length
        1056 = 1056 := by
      rw [List.length_append, hfront]
      omega
    rw [hmin, List.take_left' hfront, ← hroot]
    exact Ne.symm hr

/-! ## Conformance to the spec-side chain and layout -/

lemma fileBlocks_pos (file : List Nat) (h : 1024 < file.length) :
    fileBlocks file = file.take 1024 :: fileBlocks (file.drop 1024) := by
  rw [fileBlocks]
  simp [h]

lemma fileBlocks_neg (file : List Nat) (h : ¬ 1024 < file.length) :
    fileBlocks file = [file] := by
  rw [fileBlocks]
  simp [h]

lemma fileBlocks_ne_nil (file : List Nat) : fileBlocks file ≠ [] := by
  rcases lt_or_le 1024 file.length with h | h
  · rw [fileBlocks_pos file h]
    simp
  · rw [fileBlocks_neg file (by omega)]
    simp

lemma specChain_ne_nil (H : List Nat → List Nat) (blocks : List (List Nat))
    (h : blocks ≠ []) : specChain H blocks ≠ [] := by
  cases blocks with
  | nil => exact absurd rfl h
  | cons b bs =>
      simp only [specChain]
      cases specChain H bs <;> simp

lemma specChain_cons_of_cons (H : List Nat → List Nat) (b : List Nat)
    (blocks : List (List Nat)) (d : List Nat) (ds : List (List Nat))
    (hd : specChain H blocks = d :: ds) :
    specChain H (b :: blocks) = H (b ++ d) :: d :: ds := by
  cases blocks with
  | nil => simp [specChain] at hd
  | cons b' bs =>
      simp only [specChain] at hd ⊢
      rw [hd]

lemma chain_spec_bound (H : List Nat → List Nat) :
    ∀ (n : Nat) (file : List Nat), file.length ≤ n →
      file.length % 1024 ≠ 0 →
      compute_hashes H file [] = (specChain H (fileBlocks file)).reverse := by
  intro n
  induction n with
  | zero =>
      intro file hf hm
      omega
  | succ n ih =>
      intro file hf hm
      rcases lt_or_le file.length 1024 with h | h
      · rw [compute_hashes_small H file h, fileBlocks_neg file (by omega)]
        simp [specChain]
      · have h' : 1024 < file.length := by omega
        have hsplit := List.take_append_drop 1024 file
        have hlen : (file.take 1024).length = 1024 := by
          rw [List.length_take]; omega
        have hch := compute_hashes_append H (file.take 1024) (file.drop 1024) hlen
        rw [hsplit] at hch
        have hrest_m : (file.drop 1024).length % 1024 ≠ 0 := by
          rw [List.length_drop]; omega
        have ihr := ih (file.drop 1024) (by rw [List.length_drop]; omega) hrest_m
        obtain ⟨d, ds, hd⟩ : ∃ d ds,
            specChain H (fileBlocks (file.drop 1024)) = d :: ds := by
          cases hsc : specChain H (fileBlocks (file.drop 1024)) with
          | nil => exact absurd hsc (specChain_ne_nil H _ (fileBlocks_ne_nil _))
          | cons d ds => exact ⟨d, ds, rfl⟩
        have hroot_d : rootHash H (file.drop 1024) = d := by
          have h1 : rootHash H (file.drop 1024) =
              (compute_hashes H (file.drop 1024) []).getLastD [] := rfl
          rw [h1, ihr, hd, List.reverse_cons, List.getLastD_concat]
        rw [hch, fileBlocks_pos file h',
          specChain_cons_of_cons H (file.take 1024) _ d ds hd,
          List.reverse_cons, ihr, hd, hroot_d]

/-- For every file whose length is not a multiple of 1024, `compute_hashes`
computes exactly the spec's digest chain over the spec's blocks, listed in
reverse file order (the root is the last element). -/
lemma chain_spec (H : List Nat → List Nat) (file : List Nat)
    (hm : file.length % 1024 ≠ 0) :
    compute_hashes H file [] = (specChain H (fileBlocks file)).reverse :=
  chain_spec_bound H file.length file le_rfl hm

lemma augment_spec_bound (H : List Nat → List Nat) :
    ∀ (n : Nat) (file : List Nat), file.length ≤ n →
      file.length % 1024 ≠ 0 →
      sign file (compute_hashes H file []) = specAugment H (fileBlocks file) := by
  intro n
  induction n with
  | zero =>
      intro file hf hm
      omega
  | succ n ih =>
      intro file hf hm
      rcases lt_or_le file.length 1024 with h | h
      · rw [sign_small H file h, fileBlocks_neg file (by omega)]
        simp [specAugment]
      · have h' : 1024 < file.length := by omega
        have hsplit := List.take_append_drop 1024 file
        have hlen : (file.take 1024).length = 1024 := by
          rw [List.length_take]; omega
        have hsign := sign_append H (file.take 1024) (file.drop 1024) hlen
        rw [hsplit] at hsign
        have hrest_m : (file.drop 1024).length % 1024 ≠ 0 := by
          rw [List.length_drop]; omega
        have ihs := ih (file.drop 1024) (by rw [List.length_drop]; omega) hrest_m
        have ihr := chain_spec H (file.drop 1024) hrest_m
        obtain ⟨b', bs', hb⟩ : ∃ b' bs',
            fileBlocks (file.drop 1024) = b' :: bs' := by
          cases hfb : fileBlocks (file.drop 1024) with
          | nil => exact absurd hfb (fileBlocks_ne_nil _)
          | cons b' bs' => exact ⟨b', bs', rfl⟩
        obtain ⟨d, ds, hd⟩ : ∃ d ds,
            specChain H (fileBlocks (file.drop 1024)) = d :: ds := by
          cases hsc : specChain H (fileBlocks (file.drop 1024)) with
          | nil => exact absurd hsc (specChain_ne_nil H _ (fileBlocks_ne_nil _))
          | cons d ds => exact ⟨d, ds, rfl⟩
        have hroot_d : rootHash H (file.drop 1024) = d := by
          have h1 : rootHash H (file.drop 1024) =
              (compute_hashes H (file.drop 1024) []).getLastD [] := rfl
          rw [h1, ihr, hd, List.reverse_cons, List.getLastD_concat]
        rw [hsign, fileBlocks_pos file h', hb]
        simp only [specAugment]
        rw [← hb, hd, hroot_d, ihs, hb]

/-- For every file whose length is not a multiple of 1024, the output of
`sign` is exactly the spec's augmented layout over the spec's blocks. -/
lemma augment_spec (H : List Nat → List Nat) (file : List Nat)
    (hm : file.length % 1024 ≠ 0) :
    sign file (compute_hashes H file []) = specAugment H (fileBlocks file) :=
  augment_spec_bound H file.length file le_rfl hm

lemma fileBlocks_length_bound :
    ∀ (n : Nat) (file : List Nat), file.length ≤ n →
      file.length % 1024 ≠ 0 →
      (fileBlocks file).length = file.length / 1024 + 1 := by
  intro n
  induction n with
  | zero =>
      intro file hf hm
      omega
  | succ n ih =>
      intro file hf hm
      rcases lt_or_le file.length 1024 with h | h
      · rw [fileBlocks_neg file (by omega)]
        simp
        omega
      · have h' : 1024 < file.length := by omega
        rw [fileBlocks_pos file h', List.length_cons,
          ih (file.drop 1024) (by rw [List.length_drop]; omega)
            (by rw [List.length_drop]; omega),
          List.length_drop]
        omega

/-- Number of spec blocks for a file whose length is not a multiple of 1024. -/
lemma fileBlocks_length (file : List Nat) (hm : file.length % 1024 ≠ 0) :
    (fileBlocks file).length = file.length / 1024 + 1 :=
  fileBlocks_length_bound file.length file le_rfl hm

/-! ## The claims -/

/-- Claim C1 (round-trip): verifying `sign`'s output against the root digest
printed at signing time writes back exactly the original bytes, but the
boolean result is `true` only when the file length is NOT a multiple of 1024;
for multiples of 1024 (including the empty file) verification returns
`false`, refuting the claim for those lengths. -/
theorem c1_sign_verify_roundtrip (H : List Nat → List Nat)
    (Hlen : ∀ bs, (H bs).length = 32) (file : List Nat) :
    verify H (sign file (compute_hashes H file [])) (rootHash H file) =
      (decide (file.length % 1024 ≠ 0), file) :=
  verify_sign_eq H Hlen file

/-- Claim C1, instantiated: the round trip fails on a 1024-byte file. -/
theorem c1_witness :
    verify H0 (sign (List.replicate 1024 0)
        (compute_hashes H0 (List.replicate 1024 0) []))
      (rootHash H0 (List.replicate 1024 0)) = (false, List.replicate 1024 0) := by
  simpa using c1_sign_verify_roundtrip H0 H0_len (List.replicate 1024 0)

/-- Claim C2 (tamper detection): if the digest primitive is collision-free
(injective), replacing any single byte of the augmented file by a different
value makes `verify` return `false`, and at most the content of the chunks
strictly before the chunk holding the altered byte — `1024 * (p / 1056)`
bytes — is written to the destination. -/
theorem c2_tamper_detection (H : List Nat → List Nat)
    (Hinj : Function.Injective H) (Hlen : ∀ bs, (H bs).length = 32)
    (file : List Nat) (p v : Nat)
    (hp : p < (sign file (compute_hashes H file [])).length)
    (hv : (sign file (compute_hashes H file [])).getD p 0 ≠ v) :
    (verify H ((sign file (compute_hashes H file [])).set p v)
        (rootHash H file)).1 = false ∧
      (verify H ((sign file (compute_hashes H file [])).set p v)
        (rootHash H file)).2.length ≤ 1024 * (p / 1056) :=
  tamper_bound H Hinj Hlen file.length file le_rfl p v hp hv

/-- Claim C2, instantiated: flipping byte 0 of the signed file `[5]`. -/
theorem c2_witness :
    (verify H0 ((sign [5] (compute_hashes H0 [5] [])).set 0 7)
        (rootHash H0 [5])).1 = false ∧
      (verify H0 ((sign [5] (compute_hashes H0 [5] [])).set 0 7)
        (rootHash H0 [5])).2.length ≤ 0 := by
  have hs : sign [5] (compute_hashes H0 [5] []) = [5] :=
    sign_small H0 [5] (by decide)
  have h := c2_tamper_detection H0 H0_injective H0_len [5] 0 7
    (by rw [hs]; decide) (by rw [hs]; decide)
  simpa using h

/-- Claim C3 (hash chain): for files whose length is not a multiple of 1024,
`compute_hashes` yields exactly the spec's chain — one digest per block, in
reverse file order, `digest(last) = H(last_bytes)`,
`digest(i) = H(bytes_i ++ digest(i+1))`, root last.  For a nonempty file
whose length IS a multiple of 1024 the claim fails: the 1024-byte file gets
two digests for its single block, the extra one being `H []`. -/
theorem c3_hash_chain :
    (∀ (H : List Nat → List Nat) (file : List Nat), file.length % 1024 ≠ 0 →
      compute_hashes H file [] = (specChain H (fileBlocks file)).reverse) ∧
    compute_hashes H0 (List.replicate 1024 0) [] =
      [H0 [], H0 (List.replicate 1024 0 ++ H0 [])] ∧
    (fileBlocks (List.replicate 1024 0)).length = 1 := by
  refine ⟨fun H file hm => chain_spec H file hm, ?_, ?_⟩
  · have ha : (List.replicate 1024 (0:Nat)).length = 1024 := by simp
    have h := compute_hashes_append H0 (List.replicate 1024 0) [] ha
    rw [List.append_nil] at h
    rw [h, compute_hashes_small H0 [] (by simp), rootHash_small H0 [] (by simp)]
    rfl
  · rw [fileBlocks_neg _ (by simp)]
    rfl

/-- Claim C3, instantiated on a 2-byte file. -/
theorem c3_witness :
    compute_hashes H0 [1, 2] [] = (specChain H0 (fileBlocks [1, 2])).reverse :=
  c3_hash_chain.1 H0 [1, 2] (by decide)

/-- Claim C4 (augmented layout): for files whose length is not a multiple of
1024, `sign` writes exactly the spec's `(block_i, digest(block_{i+1}))`
sequence with the last block bare, and the augmented length is the original
plus `(N - 1) * 32`.  For the 1024-byte file the claim fails: the single
(last) block does get a digest appended and the total is 1056, not
`1024 + (N - 1) * 32 = 1024`. -/
theorem c4_augmented_layout :
    (∀ (H : List Nat → List Nat), (∀ bs, (H bs).length = 32) →
      ∀ file : List Nat, file.length % 1024 ≠ 0 →
        sign file (compute_hashes H file []) = specAugment H (fileBlocks file) ∧
        (sign file (compute_hashes H file [])).length =
          file.length + ((fileBlocks file).length - 1) * 32) ∧
    (sign (List.replicate 1024 0)
      (compute_hashes H0 (List.replicate 1024 0) [])).length = 1056 ∧
    (fileBlocks (List.replicate 1024 0)).length = 1 := by
  refine ⟨?_, ?_, ?_⟩
  · intro H Hlen file hm
    refine ⟨augment_spec H file hm, ?_⟩
    rw [sign_length H Hlen file, fileBlocks_length file hm]
    omega
  · rw [sign_length H0 H0_len]
    simp
  · rw [fileBlocks_neg _ (by simp)]
    rfl

/-- Claim C4, instantiated on a 1-byte file. -/
theorem c4_witness :
    sign [7] (compute_hashes H0 [7] []) = specAugment H0 (fileBlocks [7]) ∧
      (sign [7] (compute_hashes H0 [7] [])).length =
        ([7] : List Nat).length + ((fileBlocks [7]).length - 1) * 32 :=
  c4_augmented_layout.1 H0 H0_len [7] (by decide)

/-- Claim C5 (exact multiple): for a nonempty file whose length is a multiple
of 1024, the reverse reader is claimed to yield `N = length / 1024` chunks,
the first of length 1024; in fact it yields `N + 1` chunks and the first has
data length 0 (for the 1024-byte file: a zero-length chunk, then the block). -/
theorem c5_exact_multiple_blocks :
    (∀ file : List Nat, file.length % 1024 = 0 → file ≠ [] →
      (fileRevIter file).length = file.length / 1024 + 1 ∧
      ((fileRevIter file).headD (0, [])).1 = 0) ∧
    fileRevIter (List.replicate 1024 0) =
      [(0, List.replicate 1024 0), (1024, List.replicate 1024 0)] := by
  constructor
  · intro file hm hne
    refine ⟨fileRevIter_length file, ?_⟩
    rw [fileRevIter_head_fst file, hm]
  · have ha : (List.replicate 1024 (0:Nat)).length = 1024 := by simp
    have h := fileRevIter_append (List.replicate 1024 0) [] ha
    rw [List.append_nil] at h
    rw [h, fileRevIter_small [] (by simp)]
    simp

/-- Claim C5, instantiated on the 1024-byte file. -/
theorem c5_witness :
    (fileRevIter (List.replicate 1024 0)).length =
        (List.replicate 1024 (0:Nat)).length / 1024 + 1 ∧
      ((fileRevIter (List.replicate 1024 0)).headD (0, [])).1 = 0 :=
  c5_exact_multiple_blocks.1 (List.replicate 1024 0) (by simp) (by simp)

/-- Claim C6 (empty file): signing a 0-byte file is claimed to yield zero
blocks, an empty digest list and no `Hash 0` line.  In fact the reverse
reader yields one zero-length chunk, the digest list is `[H []]`, and
`hashes.last()` is `some (H [])`, so `main` does print `Hash 0`; only the
last conjunct of the claim holds: the output file is empty. -/
theorem c6_empty_file : ∀ H : List Nat → List Nat,
    fileRevIter ([] : List Nat) = [(0, List.replicate 1024 0)] ∧
    compute_hashes H [] [] = [H []] ∧
    (compute_hashes H [] []).getLast? = some (H []) ∧
    sign [] (compute_hashes H [] []) = [] := by
  intro H
  refine ⟨?_, compute_hashes_small H [] (by simp), ?_,
    sign_small H [] (by simp)⟩
  · rw [fileRevIter_small [] (by simp)]
    simp
  · rw [compute_hashes_small H [] (by simp)]
    rfl

/-- Claim C7 (root sensitivity): verifying the signed output of a nonempty
file against any 32-byte digest other than the printed root fails on the very
first chunk, before any content byte is written. -/
theorem c7_rootSensitivity (H : List Nat → List Nat)
    (Hlen : ∀ bs, (H bs).length = 32) (file : List Nat) (hne : file ≠ [])
    (r : List Nat) (hr32 : r.length = 32) (hr : r ≠ rootHash H file) :
    verify H (sign file (compute_hashes H file [])) r = (false, []) :=
  verify_wrong_root H Hlen file hne r hr

/-- Claim C7, instantiated: the all-zero root on the signed file `[5]`. -/
theorem c7_witness :
    verify H0 (sign [5] (compute_hashes H0 [5] [])) (List.replicate 32 0) =
      (false, []) := by
  apply c7_rootSensitivity H0 H0_len [5] (by decide) (List.replicate 32 0)
    (by simp)
  rw [rootHash_small H0 [5] (by decide)]
  decide

/-- Claim C8 (sub-block file): a file shorter than 1024 bytes yields exactly
one chunk equal to the whole file, its digest `H(file)` is the whole digest
list and the root, and the augmented file is byte-identical to the input. -/
theorem c8_sub_block_file (H : List Nat → List Nat) (file : List Nat)
    (h : file.length < 1024) :
    fileRevIter file =
        [(file.length, file ++ List.replicate (1024 - file.length) 0)] ∧
      compute_hashes H file [] = [H file] ∧
      rootHash H file = H file ∧
      sign file (compute_hashes H file []) = file :=
  ⟨fileRevIter_small file h, compute_hashes_small H file h,
    rootHash_small H file h, sign_small H file h⟩

/-- Claim C8, instantiated on the 3-byte file `[1, 2, 3]`. -/
theorem c8_witness :
    fileRevIter [1, 2, 3] = [(3, [1, 2, 3] ++ List.replicate 1021 0)] ∧
      compute_hashes H0 [1, 2, 3] [] = [H0 [1, 2, 3]] ∧
      rootHash H0 [1, 2, 3] = H0 [1, 2, 3] ∧
      sign [1, 2, 3] (compute_hashes H0 [1, 2, 3] []) = [1, 2, 3] := by
  simpa using c8_sub_block_file H0 [1, 2, 3] (by decide)

/-- Claim C9 (non-overwrite): if the destination path already exists, `sign`
fails with `AlreadyExists` leaving the filesystem unchanged, and so does
`verify` (which opens its input first, so the input must exist). -/
theorem c9_non_overwrite {Path : Type} [DecidableEq Path]
    (fs : Path → Option (List Nat)) (input output : Path)
    (hashes : List (List Nat)) (H : List Nat → List Nat) (root : List Nat)
    (existing : List Nat) (hout : fs output = some existing) :
    sign_fs fs input output hashes = (fs, Except.error FsErr.alreadyExists) ∧
      ((∃ c, fs input = some c) →
        verify_fs H fs input output root =
          (fs, Except.error FsErr.alreadyExists)) := by
  constructor
  · simp only [sign_fs, hout]
  · rintro ⟨c, hin⟩
    simp only [verify_fs, hin, hout]

/-- Claim C9, instantiated on a two-file filesystem over `Nat` paths. -/
theorem c9_witness :
    sign_fs (fun p => if p = 0 then some [1] else
        if p = 1 then some [9] else none) 0 1 [] =
      ((fun p => if p = 0 then some [1] else
        if p = 1 then some [9] else none), Except.error FsErr.alreadyExists) ∧
    verify_fs H0 (fun p => if p = 0 then some [1] else
        if p = 1 then some [9] else none) 0 1 [] =
      ((fun p => if p = 0 then some [1] else
        if p = 1 then some [9] else none), Except.error FsErr.alreadyExists) := by
  have h := c9_non_overwrite
    (fun p : Nat => if p = 0 then some [1] else
      if p = 1 then some [9] else none) 0 1 [] H0 [] [9] (by simp)
  exact ⟨h.1, h.2 ⟨[1], by simp⟩⟩

/-- Claim C10 (implicit): any input whose length is a multiple of 1056 —
which is exactly what `sign` produces from a file whose length is a multiple
of 1024 — makes `verify` return `Ok(false)` for every supplied root digest:
every full chunk is treated as non-final and the loop ends on a zero-length
read. -/
theorem c10_aligned_never_verifies :
    (∀ (H : List Nat → List Nat) (input hash : List Nat),
      input.length % 1056 = 0 → (verify H input hash).1 = false) ∧
    (∀ (H : List Nat → List Nat), (∀ bs, (H bs).length = 32) →
      ∀ file : List Nat, file.length % 1024 = 0 →
        (sign file (compute_hashes H file [])).length % 1056 = 0) := by
  constructor
  · intro H input hash hm
    exact verify_mod1056_bound H input.length input hash le_rfl hm
  · intro H Hlen file hm
    rw [sign_length H Hlen file]
    omega

/-- Claim C10, instantiated: a 1056-byte input never verifies, and signing the
1024-byte file produces a multiple of 1056. -/
theorem c10_witness :
    (verify H0 (List.replicate 1056 0) []).1 = false ∧
      (sign (List.replicate 1024 0)
        (compute_hashes H0 (List.replicate 1024 0) [])).length % 1056 = 0 :=
  ⟨c10_aligned_never_verifies.1 H0 (List.replicate 1056 0) [] (by simp),
    c10_aligned_never_verifies.2 H0 H0_len (List.replicate 1024 0) (by simp)⟩

end FileAuth
